import Mathlib

/-!
Verification development for the gmocoin-exec-alert bridge.

The Lean definitions below are a shallow embedding of the Python sources:
  - `src/gmocoin_exec_alert/dedup.py`      (DedupCache)
  - `src/gmocoin_exec_alert/main.py`       (dedup key / summary derivation,
                                            receive loop, run-once cycle,
                                            reconnect backoff runner)
  - `src/gmocoin_exec_alert/pagerduty.py`  (PagerDutyClient trigger/resolve)

Machine reals (Python floats from time.time()) are modelled as integers;
external effects (HTTP responses, websocket frames, the json module and the
builtin hash) are passed in as explicit data.
-/

/-- A JSON value as decoded by Python json.loads.  Object fields are kept in
insertion order, as Python dicts preserve it.  Numbers are modelled as
integers (the event payloads of this feed carry prices and sizes as JSON
strings, so no float behaviour is load-bearing). -/
inductive JVal where
  | null
  | bool (b : Bool)
  | num (n : Int)
  | str (s : String)
  | arr (xs : List JVal)
  | obj (fields : List (String × JVal))

/-- Python dict.get on a decoded JSON object: first binding of the key,
if any. -/
def getField (key : String) : List (String × JVal) → Option JVal
  | [] => none
  | (k, v) :: rest => if k = key then some v else getField key rest

mutual

/-- Python repr() of a json.loads value (used by str() for containers). -/
def pyRepr : JVal → String
  | .null => "None"
  | .bool b => if b then "True" else "False"
  | .num n => toString n
  | .str s => "\x27" ++ s ++ "\x27"
  | .arr xs => "[" ++ pyReprList xs ++ "]"
  | .obj fs => "\x7b" ++ pyReprFields fs ++ "\x7d"

/-- Comma-separated repr of list elements. -/
def pyReprList : List JVal → String
  | [] => ""
  | [x] => pyRepr x
  | x :: y :: rest => pyRepr x ++ ", " ++ pyReprList (y :: rest)

/-- Comma-separated repr of dict items. -/
def pyReprFields : List (String × JVal) → String
  | [] => ""
  | [(k, v)] => "\x27" ++ k ++ "\x27: " ++ pyRepr v
  | (k, v) :: f :: rest => "\x27" ++ k ++ "\x27: " ++ pyRepr v ++ ", " ++ pyReprFields (f :: rest)

end

/-- Python str() of a json.loads value, as applied by f-string interpolation. -/
def pyStr : JVal → String
  | .str s => s
  | v => pyRepr v

/-- Python str() of the result of dict.get(key): missing keys give None,
whose str() is "None". -/
def optStr : Option JVal → String
  | none => "None"
  | some v => pyStr v

/-- JSON string escaping as performed by json.dumps (quote, backslash and
the common control characters). -/
def jsonEscapeChar (c : Char) : String :=
  if c = '\"' then "\\\""
  else if c = '\\' then "\\\\"
  else if c = '\n' then "\\n"
  else if c = '\t' then "\\t"
  else if c = '\r' then "\\r"
  else String.singleton c

/-- JSON escaping of a whole string. -/
def jsonEscape (s : String) : String :=
  String.join (s.data.map jsonEscapeChar)

/-- The key ordering used by json.dumps(..., sort_keys=True). -/
def sortFields (fs : List (String × JVal)) : List (String × JVal) :=
  List.insertionSort (fun a b => a.1 ≤ b.1) fs

theorem sizeOf_snd_lt_of_mem_sortFields {kv : String × JVal} {fs : List (String × JVal)}
    (h : kv ∈ sortFields fs) : sizeOf kv.2 < 1 + sizeOf fs := by
  have hmem : kv ∈ fs := by
    have hp := List.perm_insertionSort (fun a b : String × JVal => a.1 ≤ b.1) fs
    exact hp.mem_iff.mp (by simpa [sortFields] using h)
  have h1 : sizeOf kv < sizeOf fs := List.sizeOf_lt_of_mem hmem
  obtain ⟨k, v⟩ := kv
  simp only [Prod.mk.sizeOf_spec] at h1
  simp only []
  omega

/-- json.dumps(v, sort_keys=True, separators=(",", ":")): canonical compact
serialization with object keys sorted at every level. -/
def dumps : JVal → String
  | .null => "null"
  | .bool b => if b then "true" else "false"
  | .num n => toString n
  | .str s => "\"" ++ jsonEscape s ++ "\""
  | .arr xs =>
      "[" ++ String.intercalate "," (xs.attach.map (fun x => dumps x.1)) ++ "]"
  | .obj fs =>
      "\x7b" ++ String.intercalate ","
        ((sortFields fs).attach.map
          (fun kv => "\"" ++ jsonEscape kv.1.1 ++ "\":" ++ dumps kv.1.2)) ++ "\x7d"
decreasing_by
  · have := List.sizeOf_lt_of_mem x.2
    simp only [JVal.arr.sizeOf_spec]
    omega
  · have := sizeOf_snd_lt_of_mem_sortFields kv.2
    simp only [JVal.obj.sizeOf_spec]
    omega

/-! ## DedupCache (src/gmocoin_exec_alert/dedup.py)

The OrderedDict `_seen` is modelled as an association list ordered from
least-recently-touched (head) to most-recently-touched (tail); timestamps
are integers. -/

/-- OrderedDict.get: first timestamp stored for a key. -/
def lookupTs (key : String) : List (String × Int) → Option Int
  | [] => none
  | (k, ts) :: rest => if k = key then some ts else lookupTs key rest

/-- Key membership of the ordered mapping. -/
def hasKey (key : String) : List (String × Int) → Bool
  | [] => false
  | (k, _) :: rest => k = key || hasKey key rest

/-- Remove the (first) entry of a key, as a helper for move_to_end. -/
def removeKey (key : String) : List (String × Int) → List (String × Int)
  | [] => []
  | (k, ts) :: rest => if k = key then rest else (k, ts) :: removeKey key rest

/-- OrderedDict.move_to_end(key): relocate the entry to the
most-recently-touched position, keeping its stored timestamp. -/
def moveToEnd (key : String) (seen : List (String × Int)) : List (String × Int) :=
  match lookupTs key seen with
  | none => seen
  | some ts => removeKey key seen ++ [(key, ts)]

/-- DedupCache._prune(now): pop entries from the least-recently-touched end
while their first-seen timestamp is not strictly newer than the cutoff
now - ttl_sec, stopping at the first non-expired head. -/
def pruneSeen (ttl_sec now : Int) : List (String × Int) → List (String × Int)
  | [] => []
  | (k, ts) :: rest =>
      if ts > now - ttl_sec then (k, ts) :: rest
      else pruneSeen ttl_sec now rest

/-- DedupCache._enforce_max: pop entries from the least-recently-touched end
while the size exceeds max_keys. -/
def enforceMax (max_keys : Int) : List (String × Int) → List (String × Int)
  | [] => []
  | (k, ts) :: rest =>
      if ((k, ts) :: rest).length > max_keys then enforceMax max_keys rest
      else (k, ts) :: rest

/-- The DedupCache state: configuration plus the ordered mapping `_seen`. -/
structure DedupCache where
  ttl_sec : Int
  max_keys : Int
  seen : List (String × Int)

/-- DedupCache.__init__: rejects non-positive ttl_sec or max_keys with
ValueError, otherwise starts with an empty mapping. -/
def DedupCache.init (ttl_sec max_keys : Int) : Except String DedupCache :=
  if ttl_sec ≤ 0 then .error "ttl_sec must be > 0"
  else if max_keys ≤ 0 then .error "max_keys must be > 0"
  else .ok (DedupCache.mk ttl_sec max_keys [])

/-- DedupCache.seen_recently(key) at current time `now`: prune expired
entries, then either insert a missing key (with timestamp now, enforcing
max_keys) and report False, or refresh the recency of a present key
(keeping its original timestamp) and report whether it is within ttl_sec. -/
def DedupCache.seen_recently (c : DedupCache) (now : Int) (key : String) : Bool × DedupCache :=
  let pruned := pruneSeen c.ttl_sec now c.seen
  match lookupTs key pruned with
  | none =>
      (false, DedupCache.mk c.ttl_sec c.max_keys (enforceMax c.max_keys (pruned ++ [(key, now)])))
  | some ts =>
      (decide (now - ts ≤ c.ttl_sec), DedupCache.mk c.ttl_sec c.max_keys (moveToEnd key pruned))

/-- A sequence of seen_recently calls, each given as (current time, key). -/
def runCalls (c : DedupCache) : List (Int × String) → DedupCache
  | [] => c
  | (now, key) :: rest => runCalls (c.seen_recently now key).2 rest

/-! ## Event-to-alert mapping (src/gmocoin_exec_alert/main.py)

Python's builtin hash of the canonical dump is process-seeded; it is passed
in as an explicit function `pyhash`, fixed for one process run. -/

/-- _dedup_key_for_event: stable dedup key per logical event.  Execution and
order-status events use their identifying fields; any other channel hashes
the canonical (sorted-keys, compact) JSON dump of the whole event. -/
def _dedup_key_for_event (pyhash : String → Int) (event : List (String × JVal)) : String :=
  let ch := pyStr ((getField "channel" event).getD (.str ""))
  if ch = "executionEvents" then
    "gmocoin:" ++ ch ++ ":" ++ optStr (getField "orderId" event) ++ ":"
      ++ optStr (getField "executionId" event)
  else if ch = "orderEvents" then
    "gmocoin:" ++ ch ++ ":" ++ optStr (getField "orderId" event) ++ ":"
      ++ optStr (getField "orderStatus" event) ++ ":"
      ++ optStr (getField "msgType" event) ++ ":"
      ++ optStr (getField "orderTimestamp" event)
  else
    "gmocoin:" ++ ch ++ ":" ++ toString (pyhash (dumps (.obj event)))

/-- Python equality of a json.loads value against a string literal, as in
the channel comparisons of _summary_for_event: true only for an equal JSON
string. -/
def pyEqStr (v : Option JVal) (s : String) : Bool :=
  match v with
  | some (.str c) => c = s
  | _ => false

/-- _summary_for_event: human summary template per channel category. -/
def _summary_for_event (event : List (String × JVal)) : String :=
  let ch := getField "channel" event
  let symbol := pyStr ((getField "symbol" event).getD (.str "?"))
  let side := pyStr ((getField "side" event).getD (.str "?"))
  if pyEqStr ch "executionEvents" then
    "GMO Coin execution " ++ symbol ++ " " ++ side
      ++ " orderId=" ++ optStr (getField "orderId" event)
      ++ " executionId=" ++ optStr (getField "executionId" event)
      ++ " price=" ++ optStr (getField "executionPrice" event)
      ++ " size=" ++ optStr (getField "executionSize" event)
  else if pyEqStr ch "orderEvents" then
    "GMO Coin order " ++ symbol ++ " " ++ side
      ++ " orderId=" ++ optStr (getField "orderId" event)
      ++ " status=" ++ optStr (getField "orderStatus" event)
      ++ " price=" ++ optStr (getField "orderPrice" event)
      ++ " size=" ++ optStr (getField "orderSize" event)
  else
    "GMO Coin " ++ optStr ch ++ " event"

/-- An inbound websocket frame as seen after json.loads is attempted:
either not parseable as JSON, or a parsed JSON value. -/
inductive WsMsg where
  | malformed (raw : String)
  | parsed (v : JVal)

/-- Whether a parsed value is a JSON object (isinstance(event, dict)). -/
def JVal.isObj : JVal → Bool
  | .obj _ => true
  | _ => false

/-- One iteration of _recv_loop on one frame received at time `now`:
non-JSON frames and non-object payloads are logged and skipped; events whose
channel is outside the subscribed set are skipped; the dedup cache gates the
PagerDuty trigger; a trigger attempt records (dedup_key, summary).  Trigger
failures are logged and do not affect the cache or the loop. -/
def recvStep (pyhash : String → Int) (channels : List String)
    (st : DedupCache) (now : Int) (m : WsMsg) : DedupCache × List (String × String) :=
  match m with
  | .malformed _ => (st, [])
  | .parsed v =>
    match v with
    | .obj event =>
      match getField "channel" event with
      | some (.str ch) =>
        if ch ∈ channels then
          let key := _dedup_key_for_event pyhash event
          let r := st.seen_recently now key
          if r.1 then (r.2, [])
          else (r.2, [(key, _summary_for_event event)])
        else (st, [])
      | _ => (st, [])
    | _ => (st, [])

/-- _recv_loop over a finite stream of timestamped frames (stop signal not
set): threads the dedup cache and collects the PagerDuty trigger attempts
in order. -/
def _recv_loop (pyhash : String → Int) (channels : List String) :
    DedupCache → List (Int × WsMsg) → DedupCache × List (String × String)
  | st, [] => (st, [])
  | st, (now, m) :: rest =>
    let r := recvStep pyhash channels st now m
    let rr := _recv_loop pyhash channels r.1 rest
    (rr.1, r.2 ++ rr.2)

/-! ## Reconnect backoff (_runner in src/gmocoin_exec_alert/main.py) -/

/-- The _runner loop folded over the outcomes of successive _run_once
cycles (true = returned normally, false = raised): returns the list of
backoff sleeps performed, in order.  A failed cycle sleeps the current
backoff and then doubles it, capped at maxB; a successful cycle resets the
backoff to base and sleeps nothing. -/
def runnerDelays (base maxB : Int) : List Bool → Int → List Int
  | [], _ => []
  | success :: rest, backoff =>
      if success then runnerDelays base maxB rest base
      else backoff :: runnerDelays base maxB rest (min (backoff * 2) maxB)

/-- The closed-form backoff sequence: delay of the (n+1)-st consecutive
failure, starting from base. -/
def backoffSeq (base maxB : Int) : Nat → Int
  | 0 => base
  | n + 1 => min (backoffSeq base maxB n * 2) maxB

/-! ## One connection cycle (_run_once in src/gmocoin_exec_alert/main.py)

The external effects of one cycle are supplied as data: the outcome of
create_ws_token, of websockets.connect, of the subscribe/task-group body,
and of delete_ws_token. -/

/-- Outcomes of the awaited effects inside one _run_once cycle. -/
structure RunOnceEnv where
  create_ws_token : Except String String
  connect : Except String Unit
  body : Except String Unit
  delete_ws_token : Except String Unit

/-- _run_once control flow: the try block runs token creation, connect and
the subscribe/task body; the finally block attempts delete_ws_token exactly
once when a (truthy, i.e. non-empty) token was obtained, swallowing any
revoke failure.  Returns the cycle outcome and the number of revoke
attempts. -/
def run_once (env : RunOnceEnv) : Except String Unit × Nat :=
  match env.create_ws_token with
  | .error e => (.error e, 0)
  | .ok token =>
    let tryResult : Except String Unit :=
      match env.connect with
      | .error e => .error e
      | .ok _ => env.body
    if token ≠ "" then
      match env.delete_ws_token with
      | .ok _ => (tryResult, 1)
      | .error _ => (tryResult, 1)
    else (tryResult, 0)

/-! ## PagerDutyClient (src/gmocoin_exec_alert/pagerduty.py)

The HTTP POST is an external effect; its response is supplied as data, and
the number of POSTs performed is returned alongside the outcome. -/

/-- Configuration of the PagerDuty Events client. -/
structure PagerDutyClient where
  routing_key : String
  events_api_url : String
  source : String
  severity : String
  dry_run : Bool

/-- An httpx response as far as the client inspects it. -/
structure HttpResponse where
  status_code : Int
  text : String

/-- PagerDutyClient.trigger: no-op in dry-run mode; otherwise one POST,
failing unless the backend acknowledges with HTTP 202. -/
def PagerDutyClient.trigger (c : PagerDutyClient) (dedup_key summary : String)
    (custom_details : JVal) (resp : HttpResponse) : Except String Unit × Nat :=
  if c.dry_run then (.ok (), 0)
  else if resp.status_code ≠ 202 then
    (.error ("PagerDuty error: " ++ toString resp.status_code ++ " " ++ resp.text
      ++ " (dedup_key=" ++ dedup_key ++ ")"), 1)
  else (.ok (), 1)

/-- PagerDutyClient.resolve: no-op in dry-run mode; otherwise one POST,
failing unless the backend acknowledges with HTTP 202. -/
def PagerDutyClient.resolve (c : PagerDutyClient) (dedup_key : String)
    (resp : HttpResponse) : Except String Unit × Nat :=
  if c.dry_run then (.ok (), 0)
  else if resp.status_code ≠ 202 then
    (.error ("PagerDuty resolve error: " ++ toString resp.status_code ++ " " ++ resp.text
      ++ " (dedup_key=" ++ dedup_key ++ ")"), 1)
  else (.ok (), 1)

/-! ## Helper lemmas -/

theorem backoffSeq_step_comm (base maxB : Int) (n : Nat) :
    backoffSeq (min (base * 2) maxB) maxB n = min (backoffSeq base maxB n * 2) maxB := by
  induction n with
  | zero => rfl
  | succ n ih => simp only [backoffSeq, ih]

theorem runnerDelays_replicate (base maxB : Int) :
    ∀ (n : Nat) (b : Int),
    runnerDelays base maxB (List.replicate n false) b
      = (List.range n).map (backoffSeq b maxB) := by
  intro n
  induction n with
  | zero => intro b; rfl
  | succ n ih =>
    intro b
    have h1 : runnerDelays base maxB (false :: List.replicate n false) b
        = b :: runnerDelays base maxB (List.replicate n false) (min (b * 2) maxB) := rfl
    rw [List.replicate_succ, h1, ih (min (b * 2) maxB), List.range_succ_eq_map,
      List.map_cons, List.map_map]
    refine congrArg (fun l => b :: l) ?_
    refine List.map_congr_left ?_
    intro i _
    show backoffSeq (min (b * 2) maxB) maxB i = backoffSeq b maxB (Nat.succ i)
    rw [backoffSeq_step_comm]
    rfl

theorem backoffSeq_bounds (n : Nat) :
    1 ≤ backoffSeq 1 30 n ∧ backoffSeq 1 30 n ≤ 30 := by
  induction n with
  | zero => exact ⟨le_refl 1, by norm_num [backoffSeq]⟩
  | succ n ih =>
    simp only [backoffSeq]
    omega

/-! ## C5 -/

/-- C5: with base=1 and max=30, the supervisor sleeps 1, 2, 4, 8, 16, 30,
30, ... on consecutive cycle failures; in general the n-th delay follows
backoffSeq, each next delay is min(previous * 2, 30), the sequence is
monotone non-decreasing and capped at 30, and a successful cycle resets the
backoff to the base before the remaining outcomes are processed. -/
theorem C5_backoff_sequence :
    runnerDelays 1 30 (List.replicate 7 false) 1 = [1, 2, 4, 8, 16, 30, 30] ∧
    (∀ n : Nat, runnerDelays 1 30 (List.replicate n false) 1
        = (List.range n).map (backoffSeq 1 30)) ∧
    (∀ n : Nat, backoffSeq 1 30 (n + 1) = min (backoffSeq 1 30 n * 2) 30) ∧
    (∀ n : Nat, backoffSeq 1 30 n ≤ backoffSeq 1 30 (n + 1)) ∧
    (∀ n : Nat, backoffSeq 1 30 n ≤ 30) ∧
    (∀ (rest : List Bool) (b : Int),
        runnerDelays 1 30 (true :: rest) b = runnerDelays 1 30 rest 1) := by
  refine ⟨by decide, fun n => runnerDelays_replicate 1 30 n 1, fun n => rfl, ?_, ?_, fun _ _ => rfl⟩
  · intro n
    have h := backoffSeq_bounds n
    simp only [backoffSeq]
    omega
  · intro n
    exact (backoffSeq_bounds n).2

/-! ## C6 -/

/-- C6: when a cycle obtained a (non-empty) token and opened the stream,
its teardown attempts the token revoke exactly once, and the cycle outcome
is unchanged whatever the revoke call returns. -/
theorem C6_teardown_revoke (env : RunOnceEnv) (tok : String)
    (hc : env.create_ws_token = .ok tok) (hne : tok ≠ "")
    (hconn : env.connect = .ok ()) :
    (run_once env).2 = 1 ∧
    ∀ d : Except String Unit,
      (run_once (RunOnceEnv.mk env.create_ws_token env.connect env.body d)).1
        = (run_once env).1 := by
  constructor
  · unfold run_once
    rw [hc]
    simp only [hne, ne_eq, not_false_eq_true, if_true]
    cases env.delete_ws_token <;> rfl
  · intro d
    unfold run_once
    rw [hc]
    simp only [hne, ne_eq, not_false_eq_true, if_true]
    cases d <;> cases env.delete_ws_token <;> rfl

/-- C6 witness: a cycle whose stream errors out and whose revoke call also
fails still reports one revoke attempt and keeps the stream error as its
outcome. -/
theorem C6_witness :
    (run_once (RunOnceEnv.mk (.ok "tok") (.ok ()) (.error "stream closed")
        (.error "revoke failed"))).2 = 1 ∧
    ∀ d : Except String Unit,
      (run_once (RunOnceEnv.mk (.ok "tok") (.ok ()) (.error "stream closed") d)).1
        = (run_once (RunOnceEnv.mk (.ok "tok") (.ok ()) (.error "stream closed")
            (.error "revoke failed"))).1 :=
  C6_teardown_revoke
    (RunOnceEnv.mk (.ok "tok") (.ok ()) (.error "stream closed") (.error "revoke failed"))
    "tok" rfl (by decide) rfl

/-! ## C9 -/

/-- C9: in dry-run mode, trigger and resolve succeed for all argument
values without performing any outbound POST. -/
theorem C9_dry_run_noop (c : PagerDutyClient) (hdry : c.dry_run = true)
    (dk s : String) (cd : JVal) (resp1 resp2 : HttpResponse) :
    c.trigger dk s cd resp1 = (.ok (), 0) ∧ c.resolve dk resp2 = (.ok (), 0) := by
  unfold PagerDutyClient.trigger PagerDutyClient.resolve
  rw [hdry]
  exact ⟨rfl, rfl⟩

/-- C9 witness: a concrete dry-run client ignores even an error response
and records no POST. -/
theorem C9_witness :
    (PagerDutyClient.mk "rk" "https://events.example" "src" "critical" true).trigger
        "k1" "summary" .null (HttpResponse.mk 500 "boom") = (.ok (), 0) ∧
    (PagerDutyClient.mk "rk" "https://events.example" "src" "critical" true).resolve
        "k1" (HttpResponse.mk 500 "boom") = (.ok (), 0) :=
  C9_dry_run_noop (PagerDutyClient.mk "rk" "https://events.example" "src" "critical" true)
    rfl "k1" "summary" .null (HttpResponse.mk 500 "boom") (HttpResponse.mk 500 "boom")

/-! ## C10 -/

/-- C10: outside dry-run mode, trigger and resolve each perform exactly one
POST and succeed exactly when the backend answers HTTP 202; any other
status, including 200 or 204, makes the call fail. -/
theorem C10_status_202 (c : PagerDutyClient) (hdry : c.dry_run = false)
    (dk s : String) (cd : JVal) (resp : HttpResponse) :
    ((c.trigger dk s cd resp).1.isOk = true ↔ resp.status_code = 202) ∧
    ((c.resolve dk resp).1.isOk = true ↔ resp.status_code = 202) ∧
    (c.trigger dk s cd resp).2 = 1 ∧ (c.resolve dk resp).2 = 1 := by
  unfold PagerDutyClient.trigger PagerDutyClient.resolve
  rw [hdry]
  by_cases h : resp.status_code = 202 <;> simp [h, Except.isOk, Except.toBool]

/-- C10 witness: a live client treats HTTP 200 as a failure (one POST made,
result not ok). -/
theorem C10_witness :
    (((PagerDutyClient.mk "rk" "https://events.example" "src" "critical" false).trigger
        "k1" "summary" .null (HttpResponse.mk 200 "ok")).1.isOk = true ↔
      (200 : Int) = 202) ∧
    (((PagerDutyClient.mk "rk" "https://events.example" "src" "critical" false).resolve
        "k1" (HttpResponse.mk 200 "ok")).1.isOk = true ↔ (200 : Int) = 202) ∧
    ((PagerDutyClient.mk "rk" "https://events.example" "src" "critical" false).trigger
        "k1" "summary" .null (HttpResponse.mk 200 "ok")).2 = 1 ∧
    ((PagerDutyClient.mk "rk" "https://events.example" "src" "critical" false).resolve
        "k1" (HttpResponse.mk 200 "ok")).2 = 1 :=
  C10_status_202 (PagerDutyClient.mk "rk" "https://events.example" "src" "critical" false)
    rfl "k1" "summary" .null (HttpResponse.mk 200 "ok")

/-! ## C7 -/

/-- C7: a frame that is not parseable as JSON, or parses to a non-object,
is skipped by the receive loop: the dedup cache state, the set of trigger
attempts and the processing of every other frame are exactly those of the
stream without it, wherever in the stream it occurs. -/
theorem C7_malformed_resilience (pyhash : String → Int) (channels : List String)
    (st : DedupCache) (pre rest : List (Int × WsMsg)) (t : Int) (raw : String)
    (v : JVal) (hv : v.isObj = false) :
    _recv_loop pyhash channels st (pre ++ (t, .malformed raw) :: rest)
      = _recv_loop pyhash channels st (pre ++ rest) ∧
    _recv_loop pyhash channels st (pre ++ (t, .parsed v) :: rest)
      = _recv_loop pyhash channels st (pre ++ rest) := by
  induction pre generalizing st with
  | nil =>
    constructor
    · simp [_recv_loop, recvStep]
    · cases v with
      | obj fs => simp [JVal.isObj] at hv
      | null => simp [_recv_loop, recvStep]
      | bool b => simp [_recv_loop, recvStep]
      | num n => simp [_recv_loop, recvStep]
      | str s => simp [_recv_loop, recvStep]
      | arr xs => simp [_recv_loop, recvStep]
  | cons hd tl ih =>
    obtain ⟨now, m⟩ := hd
    constructor
    · simp only [List.cons_append, _recv_loop, List.append_eq]
      rw [(ih _).1]
    · simp only [List.cons_append, _recv_loop, List.append_eq]
      rw [(ih _).2]

/-- C7 witness: a non-JSON frame and a JSON-array frame in the middle of a
stream leave the processing of a surrounding valid execution event
untouched. -/
theorem C7_witness :
    _recv_loop (fun _ => 0) ["executionEvents"] (DedupCache.mk 300 5000 [])
        [(0, .parsed (.obj [("channel", .str "executionEvents"),
            ("orderId", .str "O1"), ("executionId", .str "E1")])),
          (1, .malformed "!!not json"), (2, .parsed (.arr []))]
      = _recv_loop (fun _ => 0) ["executionEvents"] (DedupCache.mk 300 5000 [])
        [(0, .parsed (.obj [("channel", .str "executionEvents"),
            ("orderId", .str "O1"), ("executionId", .str "E1")])),
          (2, .parsed (.arr []))] := by
  exact (C7_malformed_resilience (fun _ => 0) ["executionEvents"] (DedupCache.mk 300 5000 [])
    [(0, .parsed (.obj [("channel", .str "executionEvents"),
        ("orderId", .str "O1"), ("executionId", .str "E1")]))]
    [(2, .parsed (.arr []))] 1 "!!not json" (.arr []) rfl).1

/-! ## Structural lemmas about the cache operations -/

theorem length_pruneSeen_le (ttl now : Int) (l : List (String × Int)) :
    (pruneSeen ttl now l).length ≤ l.length := by
  induction l with
  | nil => simp [pruneSeen]
  | cons e rest ih =>
    obtain ⟨k, ts⟩ := e
    by_cases h : ts > now - ttl
    · simp [pruneSeen, h]
    · simp only [pruneSeen, if_neg h]
      exact le_trans ih (Nat.le_succ _)

theorem length_enforceMax_le {m : Int} (hm : 0 ≤ m) (l : List (String × Int)) :
    ((enforceMax m l).length : Int) ≤ m := by
  induction l with
  | nil => simpa [enforceMax] using hm
  | cons e rest ih =>
    obtain ⟨k, ts⟩ := e
    rw [enforceMax]
    by_cases h : (((k, ts) :: rest).length : Int) > m
    · rw [if_pos h]
      exact ih
    · rw [if_neg h]
      omega

theorem length_removeKey_succ {key : String} {l : List (String × Int)} {ts : Int}
    (h : lookupTs key l = some ts) :
    (removeKey key l).length + 1 = l.length := by
  induction l with
  | nil => simp [lookupTs] at h
  | cons e rest ih =>
    obtain ⟨k, v⟩ := e
    by_cases hk : k = key
    · simp [removeKey, hk]
    · simp only [lookupTs, if_neg hk] at h
      simp [removeKey, hk, ih h]

theorem length_moveToEnd_le (key : String) (l : List (String × Int)) :
    (moveToEnd key l).length ≤ l.length := by
  unfold moveToEnd
  cases h : lookupTs key l with
  | none => exact le_refl _
  | some ts =>
    have := length_removeKey_succ h
    simp only [List.length_append, List.length_cons, List.length_nil]
    omega

theorem seen_recently_params (c : DedupCache) (now : Int) (k : String) :
    (c.seen_recently now k).2.ttl_sec = c.ttl_sec ∧
    (c.seen_recently now k).2.max_keys = c.max_keys := by
  unfold DedupCache.seen_recently
  cases h : lookupTs k (pruneSeen c.ttl_sec now c.seen) <;> simp [h]

theorem seen_recently_length (c : DedupCache) (now : Int) (k : String)
    (hm : 0 ≤ c.max_keys) (h : (c.seen.length : Int) ≤ c.max_keys) :
    (((c.seen_recently now k).2.seen.length : Int)) ≤ c.max_keys := by
  unfold DedupCache.seen_recently
  cases hx : lookupTs k (pruneSeen c.ttl_sec now c.seen) with
  | none =>
    simp only [hx]
    simpa using length_enforceMax_le hm (pruneSeen c.ttl_sec now c.seen ++ [(k, now)])
  | some ts =>
    simp only [hx]
    have h1 := length_moveToEnd_le k (pruneSeen c.ttl_sec now c.seen)
    have h2 := length_pruneSeen_le c.ttl_sec now c.seen
    have h3 : (moveToEnd k (pruneSeen c.ttl_sec now c.seen)).length ≤ c.seen.length :=
      le_trans h1 h2
    omega

theorem runCalls_length {maxk : Int} (hm : 0 ≤ maxk) :
    ∀ (calls : List (Int × String)) (c : DedupCache), c.max_keys = maxk →
    (c.seen.length : Int) ≤ maxk →
    ((runCalls c calls).seen.length : Int) ≤ maxk := by
  intro calls
  induction calls with
  | nil => intro c _ h; simpa [runCalls] using h
  | cons p rest ih =>
    intro c hc h
    obtain ⟨now, key⟩ := p
    show ((runCalls (c.seen_recently now key).2 rest).seen.length : Int) ≤ maxk
    apply ih
    · rw [(seen_recently_params c now key).2, hc]
    · rw [← hc]
      exact seen_recently_length c now key (hc ▸ hm) (hc ▸ h)

/-! ## C3 -/

/-- C3: starting from a freshly constructed cache with max_keys > 0, after
any sequence of seen_recently calls the cache holds at most max_keys
entries. -/
theorem C3_capacity_invariant (ttl maxk : Int) (calls : List (Int × String))
    (hm : 0 < maxk) :
    ((runCalls (DedupCache.mk ttl maxk []) calls).seen.length : Int) ≤ maxk :=
  runCalls_length (le_of_lt hm) calls (DedupCache.mk ttl maxk []) rfl (by simp; omega)

/-- C3 witness: three distinct keys pushed through a capacity-2 cache leave
at most 2 entries. -/
theorem C3_witness :
    ((runCalls (DedupCache.mk 300 2 []) [(0, "a"), (0, "b"), (0, "c")]).seen.length : Int) ≤ 2 :=
  C3_capacity_invariant 300 2 [(0, "a"), (0, "b"), (0, "c")] (by norm_num)

theorem hasKey_false_iff_lookupTs_none (key : String) (l : List (String × Int)) :
    hasKey key l = false ↔ lookupTs key l = none := by
  induction l with
  | nil => simp [hasKey, lookupTs]
  | cons e rest ih =>
    obtain ⟨k, ts⟩ := e
    by_cases h : k = key <;> simp [hasKey, lookupTs, h, ih]

theorem lookupTs_pruneSeen_none {key : String} (ttl now : Int) {l : List (String × Int)}
    (h : lookupTs key l = none) :
    lookupTs key (pruneSeen ttl now l) = none := by
  induction l with
  | nil => simpa [pruneSeen] using h
  | cons e rest ih =>
    obtain ⟨k, ts⟩ := e
    by_cases hk : k = key
    · simp [lookupTs, hk] at h
    · simp only [lookupTs, if_neg hk] at h
      by_cases hc : ts > now - ttl
      · simp [pruneSeen, hc, lookupTs, hk, h]
      · simp only [pruneSeen, if_neg hc]
        exact ih h

theorem enforceMax_eq_drop {m : Int} (hm : 0 ≤ m) (l : List (String × Int)) :
    enforceMax m l = l.drop (l.length - m.toNat) := by
  induction l with
  | nil => simp [enforceMax]
  | cons e rest ih =>
    obtain ⟨k, ts⟩ := e
    rw [enforceMax]
    by_cases h : (((k, ts) :: rest).length : Int) > m
    · rw [if_pos h, ih]
      have h1 : ((k, ts) :: rest).length - m.toNat = (rest.length - m.toNat) + 1 := by
        simp only [List.length_cons] at h ⊢
        omega
      rw [h1, List.drop_succ_cons]
    · rw [if_neg h]
      have h1 : ((k, ts) :: rest).length - m.toNat = 0 := by
        simp only [List.length_cons] at h ⊢
        omega
      rw [h1, List.drop_zero]

theorem lookupTs_append_self {key : String} {l : List (String × Int)} (v : Int)
    (h : hasKey key l = false) :
    lookupTs key (l ++ [(key, v)]) = some v := by
  induction l with
  | nil => simp [lookupTs]
  | cons e rest ih =>
    obtain ⟨k, ts⟩ := e
    simp only [hasKey, Bool.or_eq_false_iff, decide_eq_false_iff_not] at h
    simp only [List.cons_append, lookupTs, if_neg h.1]
    exact ih h.2

theorem hasKey_drop_false {key : String} {l : List (String × Int)} (d : Nat)
    (h : hasKey key l = false) :
    hasKey key (l.drop d) = false := by
  induction d generalizing l with
  | zero => simpa using h
  | succ d ih =>
    cases l with
    | nil => simp [hasKey]
    | cons e rest =>
      obtain ⟨k, ts⟩ := e
      simp only [hasKey, Bool.or_eq_false_iff] at h
      simpa [List.drop_succ_cons] using ih h.2

/-! ## C4 -/

/-- C4: a seen_recently call on an absent key returns false, the new state
is what remains of the pruned mapping with (key, now) appended once the
oldest (front) entries are evicted down to max_keys, and the key is indeed
resident afterwards with timestamp now. -/
theorem C4_miss_insert_evict (c : DedupCache) (now : Int) (k : String)
    (habs : lookupTs k c.seen = none) (hm : 0 < c.max_keys) :
    (c.seen_recently now k).1 = false ∧
    (c.seen_recently now k).2.seen
      = (pruneSeen c.ttl_sec now c.seen ++ [(k, now)]).drop
          ((pruneSeen c.ttl_sec now c.seen ++ [(k, now)]).length - c.max_keys.toNat) ∧
    lookupTs k (c.seen_recently now k).2.seen = some now := by
  have hpn : lookupTs k (pruneSeen c.ttl_sec now c.seen) = none :=
    lookupTs_pruneSeen_none c.ttl_sec now habs
  have hdrop := enforceMax_eq_drop (le_of_lt hm) (pruneSeen c.ttl_sec now c.seen ++ [(k, now)])
  unfold DedupCache.seen_recently
  simp only [hpn]
  refine ⟨trivial, hdrop, ?_⟩
  rw [hdrop]
  have hlen : (pruneSeen c.ttl_sec now c.seen ++ [(k, now)]).length - c.max_keys.toNat
      ≤ (pruneSeen c.ttl_sec now c.seen).length := by
    simp only [List.length_append, List.length_cons, List.length_nil]
    omega
  rw [List.drop_append_of_le_length hlen]
  exact lookupTs_append_self now
    (hasKey_drop_false _ ((hasKey_false_iff_lookupTs_none k _).mpr hpn))

/-- C4 witness: inserting a fresh key "b" at time 5 into a capacity-2 cache
holding one live entry returns false and stores ("b", 5) at the recent end. -/
theorem C4_witness :
    ((DedupCache.mk 300 2 [("a", 0)]).seen_recently 5 "b").1 = false ∧
    ((DedupCache.mk 300 2 [("a", 0)]).seen_recently 5 "b").2.seen = [("a", 0), ("b", 5)] ∧
    lookupTs "b" ((DedupCache.mk 300 2 [("a", 0)]).seen_recently 5 "b").2.seen = some 5 :=
  C4_miss_insert_evict (DedupCache.mk 300 2 [("a", 0)]) 5 "b" rfl (by norm_num)

/-! ## Field-order invariance of the key derivation -/

instance : IsTotal (String × JVal) (fun a b => a.1 ≤ b.1) :=
  ⟨fun a b => le_total a.1 b.1⟩

instance : IsTrans (String × JVal) (fun a b => a.1 ≤ b.1) :=
  ⟨fun _ _ _ h1 h2 => le_trans h1 h2⟩

instance : IsAntisymm (String × JVal) (fun a b => a.1 < b.1) :=
  ⟨fun _ _ h1 h2 => absurd h2 (not_lt.mpr (le_of_lt h1))⟩

theorem getField_perm (k : String) {l1 l2 : List (String × JVal)}
    (hp : l1.Perm l2) (hnd : (l1.map Prod.fst).Nodup) :
    getField k l1 = getField k l2 := by
  induction hp with
  | nil => rfl
  | cons x tl ih =>
    obtain ⟨k1, v1⟩ := x
    simp only [List.map_cons, List.nodup_cons] at hnd
    by_cases h : k1 = k <;> simp [getField, h, ih hnd.2]
  | swap a b tl =>
    obtain ⟨ka, va⟩ := a
    obtain ⟨kb, vb⟩ := b
    simp only [List.map_cons, List.nodup_cons, List.mem_cons] at hnd
    have hab : kb ≠ ka := fun h => hnd.1 (Or.inl h)
    by_cases ha : ka = k
    · by_cases hb : kb = k
      · exact absurd (hb.trans ha.symm) hab
      · simp [getField, ha, hb]
    · by_cases hb : kb = k <;> simp [getField, ha, hb]
  | trans p1 p2 ih1 ih2 =>
    have hnd2 := (p1.map Prod.fst).nodup hnd
    rw [ih1 hnd, ih2 hnd2]

theorem sortFields_sorted (fs : List (String × JVal)) :
    List.Sorted (fun a b : String × JVal => a.1 ≤ b.1) (sortFields fs) :=
  List.sorted_insertionSort (fun a b : String × JVal => a.1 ≤ b.1) fs

theorem sortFields_perm (fs : List (String × JVal)) : (sortFields fs).Perm fs :=
  List.perm_insertionSort (fun a b : String × JVal => a.1 ≤ b.1) fs

theorem pairwise_keyLt_of_sorted {l : List (String × JVal)}
    (hs : List.Sorted (fun a b : String × JVal => a.1 ≤ b.1) l)
    (hnd : (l.map Prod.fst).Nodup) :
    List.Pairwise (fun a b : String × JVal => a.1 < b.1) l := by
  have hne : List.Pairwise (fun a b : String × JVal => a.1 ≠ b.1) l :=
    List.pairwise_map.mp hnd
  exact (List.Pairwise.and hs hne).imp (fun h => lt_of_le_of_ne h.1 h.2)

theorem sortFields_eq_of_perm {e1 e2 : List (String × JVal)}
    (hp : e1.Perm e2) (hnd : (e1.map Prod.fst).Nodup) :
    sortFields e1 = sortFields e2 := by
  have hperm : (sortFields e1).Perm (sortFields e2) :=
    ((sortFields_perm e1).trans hp).trans (sortFields_perm e2).symm
  have hnd1 : ((sortFields e1).map Prod.fst).Nodup :=
    ((sortFields_perm e1).map Prod.fst).symm.nodup hnd
  have hnd2 : ((sortFields e2).map Prod.fst).Nodup :=
    ((sortFields_perm e2).map Prod.fst).symm.nodup ((hp.map Prod.fst).nodup hnd)
  exact List.eq_of_perm_of_sorted hperm
    (pairwise_keyLt_of_sorted (sortFields_sorted e1) hnd1)
    (pairwise_keyLt_of_sorted (sortFields_sorted e2) hnd2)

/-! ## C8 -/

/-- C8: the dedup key derivation is a deterministic function of the event
as a finite map: events carrying the same fields — association lists that
are permutations of each other, with no duplicate keys, as Python dicts
guarantee — derive the identical key, for every process hash seed and in
particular for the hashed fallback branch, whose canonical sorted-keys dump
erases the field insertion order. -/
theorem C8_key_deterministic (pyhash : String → Int) (e1 e2 : List (String × JVal))
    (hp : e1.Perm e2) (hnd : (e1.map Prod.fst).Nodup) :
    _dedup_key_for_event pyhash e1 = _dedup_key_for_event pyhash e2 := by
  have hget : ∀ k, getField k e1 = getField k e2 := fun k => getField_perm k hp hnd
  have hdump : dumps (.obj e1) = dumps (.obj e2) := by
    rw [dumps, dumps, sortFields_eq_of_perm hp hnd]
  simp only [_dedup_key_for_event]
  rw [hget "channel", hget "orderId", hget "executionId", hget "orderStatus",
    hget "msgType", hget "orderTimestamp", hdump]

/-- C8 witness: a non-special-channel event and its field-reversed twin
derive the same hashed fallback key. -/
theorem C8_witness :
    _dedup_key_for_event (fun s => (s.length : Int))
        [("channel", .str "positionEvents"), ("positionId", .num 42)]
      = _dedup_key_for_event (fun s => (s.length : Int))
        [("positionId", .num 42), ("channel", .str "positionEvents")] :=
  C8_key_deterministic (fun s => (s.length : Int))
    [("channel", .str "positionEvents"), ("positionId", .num 42)]
    [("positionId", .num 42), ("channel", .str "positionEvents")]
    (List.Perm.swap ("positionId", JVal.num 42) ("channel", JVal.str "positionEvents") [])
    (by decide)

/-! ## C1 -/

/-- The execution event of the specification scenario. -/
def scenarioEvent : List (String × JVal) :=
  [("channel", .str "executionEvents"), ("orderId", .str "O1"), ("executionId", .str "E1"),
   ("symbol", .str "BTC"), ("side", .str "BUY"),
   ("executionPrice", .str "100"), ("executionSize", .str "1")]

theorem seen_recently_empty (ttl maxk now : Int) (k : String) (hmax : 0 < maxk) :
    (DedupCache.mk ttl maxk []).seen_recently now k
      = (false, DedupCache.mk ttl maxk [(k, now)]) := by
  show (false, DedupCache.mk ttl maxk (enforceMax maxk ([] ++ [(k, now)]))) = _
  rw [List.nil_append, enforceMax]
  rw [if_neg (by simp; omega)]

theorem seen_recently_single_hit (ttl maxk t1 t2 : Int) (k : String)
    (hwin : t2 < t1 + ttl) :
    (DedupCache.mk ttl maxk [(k, t1)]).seen_recently t2 k
      = (true, DedupCache.mk ttl maxk [(k, t1)]) := by
  unfold DedupCache.seen_recently
  have hp : pruneSeen ttl t2 [(k, t1)] = [(k, t1)] := by
    rw [pruneSeen, if_pos (show t1 > t2 - ttl by omega)]
  have hl : lookupTs k [(k, t1)] = some t1 := by simp [lookupTs]
  simp only [hp, hl]
  have hd : decide (t2 - t1 ≤ ttl) = true := by simp; omega
  have hm : moveToEnd k [(k, t1)] = [(k, t1)] := by
    simp [moveToEnd, lookupTs, removeKey]
  rw [hd, hm]

/-- C1 counterexample: under capacity pressure the at-most-one guarantee
fails for arbitrary streams: with max_keys=1 and ttl_sec=300, the scenario
execution event delivered at times 0 and 1 — one second apart, well within
the TTL — around an unrelated execution event produces TWO trigger calls
with the same dedup key "gmocoin:executionEvents:O1:E1", because the
intervening insertion evicted the key. -/
theorem C1_counterexample :
    ((_recv_loop (fun _ => 0) ["executionEvents"] (DedupCache.mk 300 1 [])
        [(0, .parsed (.obj scenarioEvent)),
         (0, .parsed (.obj [("channel", .str "executionEvents"),
            ("orderId", .str "O2"), ("executionId", .str "E2")])),
         (1, .parsed (.obj scenarioEvent))]).2.map Prod.fst).count
      "gmocoin:executionEvents:O1:E1" = 2 := by
  rfl

/-- C1 (amended): a stream consisting of two events with the same derived
dedup key, both on subscribed channels, the second strictly within ttl_sec
of the first, produces exactly one trigger call — for the first event, with
its derived key — for every hash seed, channel set, ttl and positive
max_keys. -/
theorem C1_amended (pyhash : String → Int) (e1 e2 : List (String × JVal))
    (ch1 ch2 : String) (channels : List String) (t1 t2 ttl maxk : Int)
    (hch1 : getField "channel" e1 = some (.str ch1)) (hm1 : ch1 ∈ channels)
    (hch2 : getField "channel" e2 = some (.str ch2)) (hm2 : ch2 ∈ channels)
    (hkey : _dedup_key_for_event pyhash e1 = _dedup_key_for_event pyhash e2)
    (hwin : t2 < t1 + ttl) (hmax : 0 < maxk) :
    (_recv_loop pyhash channels (DedupCache.mk ttl maxk [])
        [(t1, .parsed (.obj e1)), (t2, .parsed (.obj e2))]).2
      = [(_dedup_key_for_event pyhash e1, _summary_for_event e1)] := by
  have h1 := seen_recently_empty ttl maxk t1 (_dedup_key_for_event pyhash e1) hmax
  have h2 := seen_recently_single_hit ttl maxk t1 t2 (_dedup_key_for_event pyhash e1) hwin
  simp only [_recv_loop, recvStep, hch1, hch2, if_pos hm1, if_pos hm2, ← hkey, h1, h2]
  simp [h2]

/-- C1 witness (the specification scenario): the execution event sent at
times 0 and 1 with ttl_sec=300 and max_keys=5000 yields exactly one
trigger, keyed "gmocoin:executionEvents:O1:E1". -/
theorem C1_witness :
    (_recv_loop (fun _ => 0) ["executionEvents"] (DedupCache.mk 300 5000 [])
        [(0, .parsed (.obj scenarioEvent)), (1, .parsed (.obj scenarioEvent))]).2
      = [("gmocoin:executionEvents:O1:E1",
          "GMO Coin execution BTC BUY orderId=O1 executionId=E1 price=100 size=1")] :=
  C1_amended (fun _ => 0) scenarioEvent scenarioEvent "executionEvents" "executionEvents"
    ["executionEvents"] 0 1 300 5000 rfl (by simp) rfl (by simp) rfl (by norm_num)
    (by norm_num)

/-! ## Invariants for the TTL-window analysis (C2)

KInv k t s: every entry for k in s carries the original timestamp t, and
every entry stored before (less recently touched than) an entry for k has
a timestamp at most t.  This is established when k is first inserted at
time t and preserved by every call on other keys. -/

def KInv (k : String) (t : Int) : List (String × Int) → Prop
  | [] => True
  | (k1, ts1) :: rest =>
      (k1 = k → ts1 = t) ∧ (hasKey k rest = true → ts1 ≤ t) ∧ KInv k t rest

/-- All timestamps of the mapping are at most T. -/
def AllTsLe (T : Int) (s : List (String × Int)) : Prop := ∀ e ∈ s, e.2 ≤ T

theorem KInv_tail {k : String} {t : Int} {e : String × Int} {rest : List (String × Int)}
    (h : KInv k t (e :: rest)) : KInv k t rest := by
  obtain ⟨k1, ts1⟩ := e
  exact h.2.2

theorem hasKey_append (k : String) (s1 s2 : List (String × Int)) :
    hasKey k (s1 ++ s2) = (hasKey k s1 || hasKey k s2) := by
  induction s1 with
  | nil => simp [hasKey]
  | cons e rest ih =>
    obtain ⟨k1, ts1⟩ := e
    simp [hasKey, ih, Bool.or_assoc]

theorem hasKey_removeKey_imp {k k2 : String} {s : List (String × Int)}
    (h : hasKey k (removeKey k2 s) = true) : hasKey k s = true := by
  induction s with
  | nil => simpa [removeKey] using h
  | cons e rest ih =>
    obtain ⟨k1, ts1⟩ := e
    by_cases hk : k1 = k2
    · simp only [removeKey, if_pos hk] at h
      simp [hasKey, h]
    · simp only [removeKey, if_neg hk] at h
      simp only [hasKey, Bool.or_eq_true] at h ⊢
      rcases h with h | h
      · exact Or.inl h
      · exact Or.inr (ih h)

theorem KInv_append_other {k k2 : String} {t v : Int} {s : List (String × Int)}
    (hk2 : k2 ≠ k) (h : KInv k t s) : KInv k t (s ++ [(k2, v)]) := by
  induction s with
  | nil =>
    exact ⟨fun hx => absurd hx hk2, by simp [hasKey], trivial⟩
  | cons e rest ih =>
    obtain ⟨k1, ts1⟩ := e
    refine ⟨h.1, ?_, ih h.2.2⟩
    intro hx
    simp only [List.append_eq] at hx
    rw [hasKey_append] at hx
    simp only [hasKey, Bool.or_eq_true] at hx
    rcases hx with hx | hx
    · exact h.2.1 hx
    · rcases hx with hx | hx
      · exact absurd (of_decide_eq_true hx) hk2
      · simp [hasKey] at hx

theorem KInv_removeKey {k k2 : String} {t : Int} {s : List (String × Int)}
    (h : KInv k t s) : KInv k t (removeKey k2 s) := by
  induction s with
  | nil => simpa [removeKey] using h
  | cons e rest ih =>
    obtain ⟨k1, ts1⟩ := e
    by_cases hk : k1 = k2
    · simp only [removeKey, if_pos hk]
      exact h.2.2
    · simp only [removeKey, if_neg hk]
      exact ⟨h.1, fun hx => h.2.1 (hasKey_removeKey_imp hx), ih h.2.2⟩

theorem KInv_pruneSeen {k : String} {t ttl now : Int} {s : List (String × Int)}
    (h : KInv k t s) : KInv k t (pruneSeen ttl now s) := by
  induction s with
  | nil => simpa [pruneSeen] using h
  | cons e rest ih =>
    obtain ⟨k1, ts1⟩ := e
    by_cases hc : ts1 > now - ttl
    · simpa [pruneSeen, hc] using h
    · simp only [pruneSeen, if_neg hc]
      exact ih h.2.2

theorem KInv_enforceMax {k : String} {t m : Int} {s : List (String × Int)}
    (h : KInv k t s) : KInv k t (enforceMax m s) := by
  induction s with
  | nil => simpa [enforceMax] using h
  | cons e rest ih =>
    obtain ⟨k1, ts1⟩ := e
    rw [enforceMax]
    by_cases hc : (((k1, ts1) :: rest).length : Int) > m
    · rw [if_pos hc]
      exact ih h.2.2
    · rw [if_neg hc]
      exact h

theorem lookupTs_eq_of_KInv {k : String} {t : Int} {s : List (String × Int)}
    (h : KInv k t s) (hk : hasKey k s = true) : lookupTs k s = some t := by
  induction s with
  | nil => simp [hasKey] at hk
  | cons e rest ih =>
    obtain ⟨k1, ts1⟩ := e
    by_cases hx : k1 = k
    · simp only [lookupTs, if_pos hx]
      rw [h.1 hx]
    · simp only [hasKey, Bool.or_eq_true] at hk
      rcases hk with hk | hk
      · exact absurd (of_decide_eq_true hk) hx
      · simp only [lookupTs, if_neg hx]
        exact ih h.2.2 hk

theorem KInv_moveToEnd_other {k k2 : String} {t : Int} {s : List (String × Int)}
    (hk2 : k2 ≠ k) (h : KInv k t s) : KInv k t (moveToEnd k2 s) := by
  unfold moveToEnd
  cases lookupTs k2 s with
  | none => exact h
  | some ts => exact KInv_append_other hk2 (KInv_removeKey h)

theorem KInv_seen_recently_other {k k2 : String} {t now : Int} {c : DedupCache}
    (hk2 : k2 ≠ k) (h : KInv k t c.seen) :
    KInv k t ((c.seen_recently now k2).2).seen := by
  unfold DedupCache.seen_recently
  cases hx : lookupTs k2 (pruneSeen c.ttl_sec now c.seen) with
  | none =>
    simp only [hx]
    exact KInv_enforceMax (KInv_append_other hk2 (KInv_pruneSeen h))
  | some ts =>
    simp only [hx]
    exact KInv_moveToEnd_other hk2 (KInv_pruneSeen h)

theorem KInv_runCalls_other {k : String} {t : Int} :
    ∀ (mid : List (Int × String)) (c : DedupCache),
    (∀ p ∈ mid, p.2 ≠ k) → KInv k t c.seen → KInv k t (runCalls c mid).seen := by
  intro mid
  induction mid with
  | nil => intro c _ h; simpa [runCalls] using h
  | cons p rest ih =>
    intro c hp h
    obtain ⟨now, k2⟩ := p
    show KInv k t (runCalls (c.seen_recently now k2).2 rest).seen
    exact ih _ (fun q hq => hp q (List.mem_cons_of_mem _ hq))
      (KInv_seen_recently_other (hp (now, k2) (List.mem_cons_self _ _)) h)

/-! ## Membership / timestamp-bound lemmas (C2) -/

theorem pruneSeen_sublist (ttl now : Int) (s : List (String × Int)) :
    (pruneSeen ttl now s).Sublist s := by
  induction s with
  | nil => simp [pruneSeen]
  | cons e rest ih =>
    obtain ⟨k1, ts1⟩ := e
    by_cases hc : ts1 > now - ttl
    · simp [pruneSeen, hc]
    · simp only [pruneSeen, if_neg hc]
      exact ih.trans (List.sublist_cons_self _ _)

theorem enforceMax_sublist (m : Int) (s : List (String × Int)) :
    (enforceMax m s).Sublist s := by
  induction s with
  | nil => simp [enforceMax]
  | cons e rest ih =>
    obtain ⟨k1, ts1⟩ := e
    rw [enforceMax]
    by_cases hc : (((k1, ts1) :: rest).length : Int) > m
    · rw [if_pos hc]
      exact ih.trans (List.sublist_cons_self _ _)
    · rw [if_neg hc]

theorem removeKey_sublist (k : String) (s : List (String × Int)) :
    (removeKey k s).Sublist s := by
  induction s with
  | nil => simp [removeKey]
  | cons e rest ih =>
    obtain ⟨k1, ts1⟩ := e
    by_cases hk : k1 = k
    · simp only [removeKey, if_pos hk]
      exact List.sublist_cons_self _ _
    · simp only [removeKey, if_neg hk]
      exact ih.cons₂ _

theorem lookupTs_some_mem {k : String} {ts : Int} {s : List (String × Int)}
    (h : lookupTs k s = some ts) : (k, ts) ∈ s := by
  induction s with
  | nil => simp [lookupTs] at h
  | cons e rest ih =>
    obtain ⟨k1, ts1⟩ := e
    by_cases hk : k1 = k
    · simp only [lookupTs, if_pos hk] at h
      rw [← hk, ← Option.some_inj.mp h]
      exact List.mem_cons_self _ _
    · simp only [lookupTs, if_neg hk] at h
      exact List.mem_cons_of_mem _ (ih h)

theorem AllTsLe_of_sublist {T : Int} {s1 s2 : List (String × Int)}
    (hs : s1.Sublist s2) (h : AllTsLe T s2) : AllTsLe T s1 :=
  fun e he => h e (hs.subset he)

theorem AllTsLe_seen_recently {T now : Int} {c : DedupCache} {k2 : String}
    (h : AllTsLe T c.seen) (hnow : now ≤ T) :
    AllTsLe T ((c.seen_recently now k2).2).seen := by
  have hpr : AllTsLe T (pruneSeen c.ttl_sec now c.seen) :=
    AllTsLe_of_sublist (pruneSeen_sublist _ _ _) h
  unfold DedupCache.seen_recently
  cases hx : lookupTs k2 (pruneSeen c.ttl_sec now c.seen) with
  | none =>
    simp only [hx]
    intro e he
    have := (enforceMax_sublist c.max_keys _).subset he
    rcases List.mem_append.mp this with hm | hm
    · exact hpr e hm
    · simp only [List.mem_singleton] at hm
      rw [hm]
      exact hnow
  | some ts =>
    simp only [hx]
    intro e he
    unfold moveToEnd at he
    rw [hx] at he
    rcases List.mem_append.mp he with hm | hm
    · exact hpr e ((removeKey_sublist _ _).subset hm)
    · simp only [List.mem_singleton] at hm
      rw [hm]
      exact hpr _ (lookupTs_some_mem hx)

theorem AllTsLe_runCalls {T : Int} :
    ∀ (calls : List (Int × String)) (c : DedupCache),
    (∀ p ∈ calls, p.1 ≤ T) → AllTsLe T c.seen → AllTsLe T (runCalls c calls).seen := by
  intro calls
  induction calls with
  | nil => intro c _ h; simpa [runCalls] using h
  | cons p rest ih =>
    intro c hp h
    obtain ⟨now, k2⟩ := p
    show AllTsLe T (runCalls (c.seen_recently now k2).2 rest).seen
    exact ih _ (fun q hq => hp q (List.mem_cons_of_mem _ hq))
      (AllTsLe_seen_recently h (hp (now, k2) (List.mem_cons_self _ _)))

theorem KInv_insert {k : String} {t : Int} {s : List (String × Int)}
    (hts : AllTsLe t s) (habs : hasKey k s = false) : KInv k t (s ++ [(k, t)]) := by
  induction s with
  | nil => exact ⟨fun _ => rfl, by simp [hasKey], trivial⟩
  | cons e rest ih =>
    obtain ⟨k1, ts1⟩ := e
    simp only [hasKey, Bool.or_eq_false_iff, decide_eq_false_iff_not] at habs
    refine ⟨fun hx => absurd hx habs.1, fun _ => hts (k1, ts1) (List.mem_cons_self _ _), ?_⟩
    exact ih (fun e he => hts e (List.mem_cons_of_mem _ he)) habs.2

theorem hasKey_pruneSeen_false_of_KInv {k : String} {t ttl now : Int}
    {s : List (String × Int)} (h : KInv k t s) (hcut : t ≤ now - ttl) :
    hasKey k (pruneSeen ttl now s) = false := by
  induction s with
  | nil => simp [pruneSeen, hasKey]
  | cons e rest ih =>
    obtain ⟨k1, ts1⟩ := e
    by_cases hc : ts1 > now - ttl
    · simp only [pruneSeen, if_pos hc]
      have hk1 : ¬ k1 = k := by
        intro hx
        rw [h.1 hx] at hc
        omega
      have hrest : hasKey k rest = false := by
        cases hr : hasKey k rest with
        | false => rfl
        | true =>
          have := h.2.1 hr
          omega
      simp [hasKey, hk1, hrest]
    · simp only [pruneSeen, if_neg hc]
      exact ih h.2.2

theorem lookupTs_pruneSeen_of_KInv {k : String} {t ttl now : Int}
    {s : List (String × Int)} (h : KInv k t s) (hcut : now - ttl < t)
    (hk : hasKey k s = true) :
    lookupTs k (pruneSeen ttl now s) = some t := by
  induction s with
  | nil => simp [hasKey] at hk
  | cons e rest ih =>
    obtain ⟨k1, ts1⟩ := e
    by_cases hc : ts1 > now - ttl
    · simp only [pruneSeen, if_pos hc]
      exact lookupTs_eq_of_KInv h hk
    · simp only [pruneSeen, if_neg hc]
      have hk1 : ¬ k1 = k := by
        intro hx
        rw [h.1 hx] at hc
        omega
      simp only [hasKey, Bool.or_eq_true] at hk
      rcases hk with hx | hx
      · exact absurd (of_decide_eq_true hx) hk1
      · exact ih h.2.2 hx

theorem runCalls_params :
    ∀ (calls : List (Int × String)) (c : DedupCache),
    (runCalls c calls).ttl_sec = c.ttl_sec ∧ (runCalls c calls).max_keys = c.max_keys := by
  intro calls
  induction calls with
  | nil => intro c; exact ⟨rfl, rfl⟩
  | cons p rest ih =>
    intro c
    obtain ⟨now, k2⟩ := p
    have h1 := ih (c.seen_recently now k2).2
    have h2 := seen_recently_params c now k2
    exact ⟨h1.1.trans h2.1, h1.2.trans h2.2⟩

theorem runCalls_append (c : DedupCache) (l1 l2 : List (Int × String)) :
    runCalls c (l1 ++ l2) = runCalls (runCalls c l1) l2 := by
  induction l1 generalizing c with
  | nil => rfl
  | cons p rest ih =>
    obtain ⟨now, k2⟩ := p
    exact ih (c.seen_recently now k2).2

/-! ## Key uniqueness of reachable cache states (C2) -/

/-- The mapping holds at most one entry per key (an OrderedDict property). -/
def UniqKeys (s : List (String × Int)) : Prop := (s.map Prod.fst).Nodup

theorem UniqKeys_of_sublist {s1 s2 : List (String × Int)}
    (hs : s1.Sublist s2) (h : UniqKeys s2) : UniqKeys s1 :=
  List.Nodup.sublist (hs.map Prod.fst) h

theorem hasKey_iff_mem_keys (k : String) (s : List (String × Int)) :
    hasKey k s = true ↔ k ∈ s.map Prod.fst := by
  induction s with
  | nil => simp [hasKey]
  | cons e rest ih =>
    obtain ⟨k1, ts1⟩ := e
    constructor
    · intro hx
      simp only [hasKey, Bool.or_eq_true, decide_eq_true_eq] at hx
      rcases hx with hx | hx
      · exact List.mem_cons.mpr (Or.inl hx.symm)
      · exact List.mem_cons.mpr (Or.inr (ih.mp hx))
    · intro hx
      rcases List.mem_cons.mp hx with hx | hx
      · simp only [hasKey, Bool.or_eq_true, decide_eq_true_eq]
        exact Or.inl hx.symm
      · simp only [hasKey, Bool.or_eq_true]
        exact Or.inr (ih.mpr hx)

theorem UniqKeys_append_missing {k : String} {v : Int} {s : List (String × Int)}
    (h : UniqKeys s) (habs : hasKey k s = false) : UniqKeys (s ++ [(k, v)]) := by
  unfold UniqKeys at h ⊢
  rw [List.map_append]
  refine List.Nodup.append h (by simp) ?_
  intro x hx hy
  simp only [List.map_cons, List.map_nil, List.mem_singleton] at hy
  rw [hy] at hx
  rw [← hasKey_iff_mem_keys] at hx
  rw [habs] at hx
  exact Bool.false_ne_true hx

theorem hasKey_removeKey_self {k : String} {s : List (String × Int)}
    (h : UniqKeys s) : hasKey k (removeKey k s) = false := by
  induction s with
  | nil => simp [removeKey, hasKey]
  | cons e rest ih =>
    obtain ⟨k1, ts1⟩ := e
    unfold UniqKeys at h
    simp only [List.map_cons, List.nodup_cons] at h
    by_cases hk : k1 = k
    · simp only [removeKey, if_pos hk]
      cases hr : hasKey k rest with
      | false => rfl
      | true =>
        rw [hasKey_iff_mem_keys] at hr
        rw [hk] at h
        exact absurd hr h.1
    · simp only [removeKey, if_neg hk]
      simp [hasKey, hk, ih h.2]

theorem UniqKeys_seen_recently {c : DedupCache} {now : Int} {k : String}
    (h : UniqKeys c.seen) : UniqKeys ((c.seen_recently now k).2).seen := by
  have hpr : UniqKeys (pruneSeen c.ttl_sec now c.seen) :=
    UniqKeys_of_sublist (pruneSeen_sublist _ _ _) h
  unfold DedupCache.seen_recently
  cases hx : lookupTs k (pruneSeen c.ttl_sec now c.seen) with
  | none =>
    simp only [hx]
    exact UniqKeys_of_sublist (enforceMax_sublist _ _)
      (UniqKeys_append_missing hpr ((hasKey_false_iff_lookupTs_none _ _).mpr hx))
  | some ts =>
    simp only [hx]
    show UniqKeys (moveToEnd k (pruneSeen c.ttl_sec now c.seen))
    unfold moveToEnd
    rw [hx]
    exact UniqKeys_append_missing
      (UniqKeys_of_sublist (removeKey_sublist _ _) hpr)
      (hasKey_removeKey_self hpr)

theorem UniqKeys_runCalls :
    ∀ (calls : List (Int × String)) (c : DedupCache),
    UniqKeys c.seen → UniqKeys (runCalls c calls).seen := by
  intro calls
  induction calls with
  | nil => intro c h; simpa [runCalls] using h
  | cons p rest ih =>
    intro c h
    obtain ⟨now, k2⟩ := p
    exact ih _ (UniqKeys_seen_recently h)

theorem lookupTs_some_hasKey {k : String} {ts : Int} {s : List (String × Int)}
    (h : lookupTs k s = some ts) : hasKey k s = true := by
  cases hx : hasKey k s with
  | true => rfl
  | false =>
    rw [(hasKey_false_iff_lookupTs_none _ _).mp hx] at h
    exact absurd h (Option.some_ne_none ts).symm

theorem hit_keeps_ts {c : DedupCache} {now ts : Int} {k : String}
    (hu : UniqKeys c.seen)
    (hx : lookupTs k (pruneSeen c.ttl_sec now c.seen) = some ts) :
    lookupTs k ((c.seen_recently now k).2).seen = some ts := by
  unfold DedupCache.seen_recently
  simp only [hx]
  show lookupTs k (moveToEnd k (pruneSeen c.ttl_sec now c.seen)) = some ts
  unfold moveToEnd
  rw [hx]
  exact lookupTs_append_self ts
    (hasKey_removeKey_self (UniqKeys_of_sublist (pruneSeen_sublist _ _ _) hu))

theorem KInv_first_insert (c : DedupCache) (t : Int) (k : String)
    (habs : lookupTs k c.seen = none) (hts : AllTsLe t c.seen) :
    KInv k t ((c.seen_recently t k).2).seen := by
  have hpn : lookupTs k (pruneSeen c.ttl_sec t c.seen) = none :=
    lookupTs_pruneSeen_none _ _ habs
  unfold DedupCache.seen_recently
  simp only [hpn]
  exact KInv_enforceMax (KInv_insert
    (AllTsLe_of_sublist (pruneSeen_sublist _ _ _) hts)
    ((hasKey_false_iff_lookupTs_none _ _).mpr hpn))

/-! ## C2 -/

/-- C2 counterexample: TTL semantics alone do not govern the cache — the
capacity bound can evict a key inside its window.  With ttl_sec=300 and
max_keys=1, key "k" is first inserted at time 0, never hit in between, yet
seen_recently("k") at time 1 (well before 0+300) returns false, because
inserting "j" evicted it. -/
theorem C2_counterexample :
    (1 : Int) < 0 + 300 ∧
    ((runCalls (DedupCache.mk 300 1 []) [(0, "k"), (0, "j")]).seen_recently 1 "k").1 = false :=
  ⟨by norm_num, rfl⟩

/-- C2 (amended): take any trace from a fresh cache: calls `pre` at times
at most t, then the first insertion of k at time t, then calls `mid` on
other keys.  Then (1) if k is still resident its stored timestamp is still
exactly t — never refreshed; (2) a seen_recently(k) at any tp ≥ t+ttl
returns false; (3) a seen_recently(k) at tp < t+ttl returns true provided
k is still resident (it may have been capacity-evicted); and (4) on any
hit, the stored first-seen timestamp is preserved, only the recency
position changes. -/
theorem C2_ttl_window (ttl maxk t tp : Int) (k : String) (pre mid : List (Int × String))
    (hpre : ∀ p ∈ pre, p.1 ≤ t)
    (habs : lookupTs k (runCalls (DedupCache.mk ttl maxk []) pre).seen = none)
    (hmid : ∀ p ∈ mid, p.2 ≠ k) :
    (∀ ts, lookupTs k (runCalls (DedupCache.mk ttl maxk [])
        (pre ++ (t, k) :: mid)).seen = some ts → ts = t) ∧
    (t + ttl ≤ tp →
      ((runCalls (DedupCache.mk ttl maxk [])
          (pre ++ (t, k) :: mid)).seen_recently tp k).1 = false) ∧
    (tp < t + ttl →
      hasKey k (runCalls (DedupCache.mk ttl maxk []) (pre ++ (t, k) :: mid)).seen = true →
      ((runCalls (DedupCache.mk ttl maxk [])
          (pre ++ (t, k) :: mid)).seen_recently tp k).1 = true) ∧
    (∀ (calls : List (Int × String)) (now ts2 : Int),
      lookupTs k (pruneSeen ttl now
          (runCalls (DedupCache.mk ttl maxk []) calls).seen) = some ts2 →
      lookupTs k ((runCalls (DedupCache.mk ttl maxk [])
          calls).seen_recently now k).2.seen = some ts2) := by
  have hsplit : runCalls (DedupCache.mk ttl maxk []) (pre ++ (t, k) :: mid)
      = runCalls ((runCalls (DedupCache.mk ttl maxk []) pre).seen_recently t k).2 mid := by
    rw [runCalls_append]
    rfl
  have hts0 : AllTsLe t (runCalls (DedupCache.mk ttl maxk []) pre).seen :=
    AllTsLe_runCalls pre _ hpre (fun e he => absurd he (List.not_mem_nil e))
  have hKI : KInv k t (runCalls (DedupCache.mk ttl maxk []) (pre ++ (t, k) :: mid)).seen := by
    rw [hsplit]
    exact KInv_runCalls_other mid _ hmid (KInv_first_insert _ t k habs hts0)
  have httl : (runCalls (DedupCache.mk ttl maxk []) (pre ++ (t, k) :: mid)).ttl_sec = ttl :=
    (runCalls_params _ _).1
  refine ⟨?_, ?_, ?_, ?_⟩
  · intro ts hts
    have hkk := lookupTs_some_hasKey hts
    have hvv := lookupTs_eq_of_KInv hKI hkk
    rw [hvv] at hts
    exact (Option.some_inj.mp hts).symm
  · intro hge
    have hlookup : lookupTs k (pruneSeen
        (runCalls (DedupCache.mk ttl maxk []) (pre ++ (t, k) :: mid)).ttl_sec tp
        (runCalls (DedupCache.mk ttl maxk []) (pre ++ (t, k) :: mid)).seen) = none := by
      rw [httl]
      cases hk : hasKey k (runCalls (DedupCache.mk ttl maxk []) (pre ++ (t, k) :: mid)).seen with
      | true =>
        exact (hasKey_false_iff_lookupTs_none _ _).mp
          (hasKey_pruneSeen_false_of_KInv hKI (by omega))
      | false =>
        exact lookupTs_pruneSeen_none _ _ ((hasKey_false_iff_lookupTs_none _ _).mp hk)
    unfold DedupCache.seen_recently
    simp only [hlookup]
  · intro hlt hk
    have hlookup : lookupTs k (pruneSeen
        (runCalls (DedupCache.mk ttl maxk []) (pre ++ (t, k) :: mid)).ttl_sec tp
        (runCalls (DedupCache.mk ttl maxk []) (pre ++ (t, k) :: mid)).seen) = some t := by
      rw [httl]
      exact lookupTs_pruneSeen_of_KInv hKI (by omega) hk
    unfold DedupCache.seen_recently
    simp only [hlookup]
    show decide (tp - t ≤ (runCalls (DedupCache.mk ttl maxk [])
        (pre ++ (t, k) :: mid)).ttl_sec) = true
    rw [httl]
    simp only [decide_eq_true_eq]
    omega
  · intro calls now ts2 hx
    have hu : UniqKeys (runCalls (DedupCache.mk ttl maxk []) calls).seen :=
      UniqKeys_runCalls calls _ (by simp [UniqKeys])
    refine hit_keeps_ts hu ?_
    rw [(runCalls_params calls (DedupCache.mk ttl maxk [])).1]
    exact hx

/-- C2 witness: in a capacity-10 cache, k inserted at time 1 after an
unrelated call, with another unrelated call at time 2, answers false at
time 400 (past the window) and true at time 100 (inside it). -/
theorem C2_witness :
    ((runCalls (DedupCache.mk 300 10 []) [(0, "a"), (1, "k"), (2, "b")]).seen_recently
        400 "k").1 = false ∧
    ((runCalls (DedupCache.mk 300 10 []) [(0, "a"), (1, "k"), (2, "b")]).seen_recently
        100 "k").1 = true := by
  constructor
  · exact (C2_ttl_window 300 10 1 400 "k" [(0, "a")] [(2, "b")] (by decide) rfl
      (by decide)).2.1 (by norm_num)
  · exact (C2_ttl_window 300 10 1 100 "k" [(0, "a")] [(2, "b")] (by decide) rfl
      (by decide)).2.2.1 (by norm_num) rfl
